import Mathlib

/-
Verification of the BattleZips placement legality core.

The development shallowly embeds the placement witness generator
(src/placement/gadget.rs), the gate constraints of the placement chip
(src/placement/chip.rs) and the bit-vector utilities (src/utils/binary.rs).

Field values produced by the witness generator are cumulative counts of
boolean bits (at most 100), far below the characteristic of the prime
field used by the circuit, so the running-sum traces are embedded over the
natural numbers: on these ranges addition and equality tests over the
field coincide exactly with those over the naturals.  Gate polynomials
that involve genuine field algebra (the orientation gate, the Lagrange
incrementor) are embedded over an arbitrary field.
-/

namespace BattleZips

/-- BOARD_SIZE constant (src/utils/board.rs): the board holds 100 cells. -/
def BOARD_SIZE : Nat := 100

/-- Numeric value of one witness bit: the field element F::from(bit),
which is 1 for a set bit and 0 otherwise. -/
def bitVal (b : Bool) : Nat := if b then 1 else 0

/-- Running bit-count trace from PlacementGadget::assign_trace
(gadget.rs lines 253-259): trace[0] = bits[0] and
trace[i] = bits[i] + trace[i-1] for i > 0. -/
def bit_sum (bits : Nat → Bool) : Nat → Nat
  | 0 => bitVal (bits 0)
  | i + 1 => bitVal (bits (i + 1)) + bit_sum bits i

/-- Sum of the S bits of the window starting at offset, as folded by the
increment closure in assign_trace (gadget.rs lines 263-266):
bits[offset..offset+S].iter().fold(0, sum). -/
def windowBitCount (S : Nat) (bits : Nat → Bool) (offset : Nat) : Nat :=
  (List.range S).foldl (fun sum k => sum + bitVal (bits (offset + k))) 0

/-- Increment closure of assign_trace (gadget.rs lines 263-273): 1 when the
window bit count equals the ship length S, else 0. -/
def increment (S : Nat) (bits : Nat → Bool) (offset : Nat) : Nat :=
  if windowBitCount S bits offset = S then 1 else 0

/-- Running full-window-count trace from PlacementGadget::assign_trace
(gadget.rs lines 275-286): trace[0] = increment(0); for i > 0, the value
carries forward unchanged when i % 10 + S >= 10 (permute case) and is
trace[i-1] + increment(i) otherwise. -/
def full_window_sum (S : Nat) (bits : Nat → Bool) : Nat → Nat
  | 0 => increment S bits 0
  | i + 1 =>
      if 10 ≤ (i + 1) % 10 + S then full_window_sum S bits i
      else full_window_sum S bits i + increment S bits (i + 1)

/-- Bit-count clause of the selector[4] gate "running sum constraints"
(chip.rs lines 264-282): the polynomial bit_count - ship_len vanishes,
i.e. the final bit count equals S. -/
def finalBitCountClause (S bc : Nat) : Prop := bc = S

/-- Window-count clause of the selector[4] gate "running sum constraints"
(chip.rs lines 264-282): the polynomial full_window_count - one vanishes,
i.e. the final window count equals 1. -/
def finalWindowClause (wc : Nat) : Prop := wc = 1

/-- Selector[4] gate "running sum constraints" (chip.rs lines 264-282):
both finalization clauses hold on the last row. -/
def runningSumConstraintsHold (S bc wc : Nat) : Prop :=
  finalBitCountClause S bc ∧ finalWindowClause wc

/-- Modelled from the spec: ShipPlacement::to_bits (utils/ship.rs, not part
of src/) produces the 100-cell row-major little-endian bit sequence holding
one contiguous run of S ones; shipBits S offset is that sequence for the
run occupying cells offset..offset+S-1. -/
def shipBits (S offset : Nat) : Nat → Bool :=
  fun i => decide (offset ≤ i ∧ i < offset + S)

-- helper lemmas about the window bit count

lemma windowBitCount_succ (S : Nat) (bits : Nat → Bool) (offset : Nat) :
    windowBitCount (S + 1) bits offset =
      windowBitCount S bits offset + bitVal (bits (offset + S)) := by
  unfold windowBitCount
  rw [List.range_succ, List.foldl_append]
  rfl

lemma windowBitCount_le (S : Nat) (bits : Nat → Bool) (offset : Nat) :
    windowBitCount S bits offset ≤ S := by
  induction S with
  | zero => rfl
  | succ n ih =>
      rw [windowBitCount_succ]
      have hb : bitVal (bits (offset + n)) ≤ 1 := by
        unfold bitVal; split <;> omega
      omega

lemma windowBitCount_eq_iff (S : Nat) (bits : Nat → Bool) (offset : Nat) :
    windowBitCount S bits offset = S ↔ ∀ k, k < S → bits (offset + k) = true := by
  induction S with
  | zero => simp [windowBitCount]
  | succ n ih =>
      rw [windowBitCount_succ]
      constructor
      · intro h
        have hle := windowBitCount_le n bits offset
        have hb : bitVal (bits (offset + n)) ≤ 1 := by
          unfold bitVal; split <;> omega
        have hn : windowBitCount n bits offset = n := by omega
        have hlast : bitVal (bits (offset + n)) = 1 := by omega
        intro k hk
        rcases Nat.lt_succ_iff_lt_or_eq.mp hk with hk | hk
        · exact (ih.mp hn) k hk
        · subst hk
          revert hlast
          unfold bitVal
          split <;> simp_all
      · intro h
        have hn : windowBitCount n bits offset = n :=
          ih.mpr (fun k hk => h k (Nat.lt_succ_of_lt hk))
        have hlast : bits (offset + n) = true := h n (Nat.lt_succ_self n)
        rw [hn, hlast]
        rfl

lemma increment_eq_one_iff (S : Nat) (bits : Nat → Bool) (offset : Nat) :
    increment S bits offset = 1 ↔ ∀ k, k < S → bits (offset + k) = true := by
  unfold increment
  rw [← windowBitCount_eq_iff]
  split <;> simp_all

lemma increment_eq_zero_of_miss (S : Nat) (bits : Nat → Bool) (offset k : Nat)
    (hk : k < S) (hb : bits (offset + k) = false) :
    increment S bits offset = 0 := by
  unfold increment
  rw [if_neg]
  intro h
  have := (windowBitCount_eq_iff S bits offset).mp h k hk
  simp_all

lemma bit_sum_eq_popcount (bits : Nat → Bool) (n : Nat) :
    bit_sum bits n = (Finset.range (n + 1)).sum (fun i => bitVal (bits i)) := by
  induction n with
  | zero => simp [bit_sum]
  | succ m ih =>
      rw [Finset.sum_range_succ, ← ih]
      show bitVal (bits (m + 1)) + bit_sum bits m = bit_sum bits m + bitVal (bits (m + 1))
      omega

/-- C2: for every 100-element bit array and every index i with 0 < i < 100,
window_count_trace[i] = window_count_trace[i-1] + 1 when i % 10 + S < 10 and
all S bits of bits[i..i+S) are set, and window_count_trace[i] =
window_count_trace[i-1] otherwise; when i % 10 + S >= 10 the bits are never
examined and the count carries forward unchanged. -/
theorem full_window_sum_step (S : Nat) (bits : Nat → Bool) (i : Nat)
    (h0 : 0 < i) (h1 : i < 100) :
    full_window_sum S bits i =
      if i % 10 + S < 10 ∧ ∀ k, k < S → bits (i + k) = true
      then full_window_sum S bits (i - 1) + 1
      else full_window_sum S bits (i - 1) := by
  obtain ⟨j, rfl⟩ : ∃ j, i = j + 1 := ⟨i - 1, by omega⟩
  have hred : j + 1 - 1 = j := rfl
  rw [hred]
  show (if 10 ≤ (j + 1) % 10 + S then full_window_sum S bits j
      else full_window_sum S bits j + increment S bits (j + 1)) = _
  by_cases hperm : 10 ≤ (j + 1) % 10 + S
  · rw [if_pos hperm, if_neg]
    intro ⟨hlt, _⟩
    omega
  · rw [if_neg hperm]
    by_cases hall : ∀ k, k < S → bits (j + 1 + k) = true
    · rw [if_pos ⟨by omega, hall⟩, (increment_eq_one_iff S bits (j + 1)).mpr hall]
    · rw [if_neg (by intro ⟨_, h⟩; exact hall h)]
      have hz : increment S bits (j + 1) = 0 := by
        unfold increment
        rw [if_neg]
        intro h
        exact hall ((windowBitCount_eq_iff S bits (j + 1)).mp h)
      omega

/-- Witness for the C2 theorem at S = 4, i = 6, on the bit array holding a
run at cells 6..9: the step at index 6 carries the count forward because
6 % 10 + 4 >= 10. -/
theorem full_window_sum_step_witness :
    full_window_sum 4 (shipBits 4 6) 6 =
      if 6 % 10 + 4 < 10 ∧ ∀ k, k < 4 → shipBits 4 6 (6 + k) = true
      then full_window_sum 4 (shipBits 4 6) 5 + 1
      else full_window_sum 4 (shipBits 4 6) 5 :=
  full_window_sum_step 4 (shipBits 4 6) 6 (by decide) (by decide)

/-- C4: for every 100-element boolean bit array whose true bit count is not
S, the final value of the bit-count running-sum trace differs from S, so the
bit-count clause of the finalization gate is violated at the last row. -/
theorem bit_count_mismatch (S : Nat) (bits : Nat → Bool)
    (h : (Finset.range 100).sum (fun i => bitVal (bits i)) ≠ S) :
    bit_sum bits 99 ≠ S ∧ ¬ finalBitCountClause S (bit_sum bits 99) := by
  have heq := bit_sum_eq_popcount bits 99
  refine ⟨by rw [heq]; exact h, ?_⟩
  unfold finalBitCountClause
  rw [heq]
  exact h

/-- Witness for the C4 theorem at S = 4 on the all-zero bit array: its bit
count 0 differs from 4 and the final bit-count trace value 0 violates the
bit-count clause. -/
theorem bit_count_mismatch_witness :
    ¬ finalBitCountClause 4 (bit_sum (fun _ => false) 99) :=
  (bit_count_mismatch 4 (fun _ => false) (by decide)).2

/-- C1 (failing-input evaluation): for S = 4 and the row-contained run at
cells 6..9 of row 0 the witness generator yields final bit count 4 but
final full-window count 0, so the finalization gate is NOT satisfied: the
permute test i % 10 + S >= 10 also fires at i = 6 where the window lies
entirely inside the row, and the single full window is never counted. -/
theorem edge_run_final_trace :
    bit_sum (shipBits 4 6) 99 = 4 ∧
    full_window_sum 4 (shipBits 4 6) 99 = 0 ∧
    ¬ runningSumConstraintsHold 4 (bit_sum (shipBits 4 6) 99)
        (full_window_sum 4 (shipBits 4 6) 99) := by
  refine ⟨by decide, by decide, ?_⟩
  intro ⟨_, hw⟩
  revert hw
  unfold finalWindowClause
  decide

lemma shipBits_increment_zero (S t i : Nat) (hS : 1 ≤ S) (hne : i ≠ t) :
    increment S (shipBits S t) i = 0 := by
  rcases Nat.lt_or_ge i t with hlt | hge
  · refine increment_eq_zero_of_miss S _ i 0 (by omega) ?_
    unfold shipBits
    simp only [decide_eq_false_iff_not]
    omega
  · have hgt : t < i := by omega
    refine increment_eq_zero_of_miss S _ i (S - 1) (by omega) ?_
    unfold shipBits
    simp only [decide_eq_false_iff_not]
    omega

/-- C5: for every witness bit array encoding exactly one run of S
consecutive ones starting at an offset with offset % 10 + S >= 10 (and no
other set bits), the final value of the window-count trace is 0, not 1,
so the window-count clause of the finalization gate is violated.  S is a
ship length: in this game ships have length 2..5, and S <= 9 is exactly
the range in which a length-S run can ever be row-contained. -/
theorem crossing_run_window_count (S t : Nat) (hS : S ≤ 9)
    (hcross : 10 ≤ t % 10 + S) (hboard : t + S ≤ 100) :
    full_window_sum S (shipBits S t) 99 = 0 ∧
    ¬ finalWindowClause (full_window_sum S (shipBits S t) 99) := by
  have hS1 : 1 ≤ S := by omega
  have ht1 : 1 ≤ t := by omega
  have hall : ∀ n, full_window_sum S (shipBits S t) n = 0 := by
    intro n
    induction n with
    | zero =>
        show increment S (shipBits S t) 0 = 0
        exact shipBits_increment_zero S t 0 hS1 (by omega)
    | succ m ih =>
        show (if 10 ≤ (m + 1) % 10 + S then full_window_sum S (shipBits S t) m
            else full_window_sum S (shipBits S t) m +
              increment S (shipBits S t) (m + 1)) = 0
        by_cases hperm : 10 ≤ (m + 1) % 10 + S
        · rw [if_pos hperm]; exact ih
        · rw [if_neg hperm, ih,
            shipBits_increment_zero S t (m + 1) hS1 (by omega)]
  refine ⟨hall 99, ?_⟩
  unfold finalWindowClause
  rw [hall 99]
  omega

/-- Witness for the C5 theorem at S = 4, offset 8 (the run marking cells
8, 9 of row 0 and 0, 1 of row 1): the final window count is 0 and the
window-count clause fails. -/
theorem crossing_run_window_count_witness :
    full_window_sum 4 (shipBits 4 8) 99 = 0 ∧
    ¬ finalWindowClause (full_window_sum 4 (shipBits 4 8) 99) :=
  crossing_run_window_count 4 8 (by decide) (by decide) (by decide)

/-- Selector[1] (bit count) toggling in assign_running_sum_trace
(gadget.rs lines 178-229): enabled at region row 1 and at every loop row
2..=100. -/
def bitCountSelectorEnabled (i : Nat) : Bool :=
  i == 1 || (decide (2 ≤ i) && decide (i ≤ 100))

/-- Selector[2] (full-window gate) toggling in assign_running_sum_trace
(gadget.rs lines 178-229): enabled at region row 1 and at loop rows
2..=100 whose witness index i-1 fails the permute test. -/
def fullWindowSelectorEnabled (S i : Nat) : Bool :=
  i == 1 || (decide (2 ≤ i) && decide (i ≤ 100) &&
    !decide (10 ≤ (i - 1) % 10 + S))

/-- Selector[3] (carry-forward / permute gate) toggling in
assign_running_sum_trace (gadget.rs lines 178-229): enabled at loop rows
2..=100 whose witness index i-1 passes the permute test. -/
def permuteSelectorEnabled (S i : Nat) : Bool :=
  decide (2 ≤ i) && decide (i ≤ 100) && decide (10 ≤ (i - 1) % 10 + S)

/-- C6: on every data row i in 1..=100 of the running-sum region the
bit-count selector is enabled, exactly one of the full-window and
carry-forward selectors is enabled, and the full-window selector is the
one enabled precisely when (i-1) % 10 + S < 10.  S is a ship length
(2..5 in this game; any row-containable ship has S <= 9). -/
theorem running_sum_selector_toggling (S i : Nat) (hS : S ≤ 9)
    (h1 : 1 ≤ i) (h2 : i ≤ 100) :
    bitCountSelectorEnabled i = true ∧
    (fullWindowSelectorEnabled S i = !permuteSelectorEnabled S i) ∧
    (fullWindowSelectorEnabled S i = true ↔ (i - 1) % 10 + S < 10) := by
  unfold bitCountSelectorEnabled fullWindowSelectorEnabled permuteSelectorEnabled
  rcases Nat.eq_or_lt_of_le h1 with h | h
  · subst i
    simp only [beq_self_eq_true, Bool.true_or, true_and]
    constructor
    · have : ¬ 10 ≤ (1 - 1) % 10 + S := by omega
      simp [this]
    · simp
      omega
  · have hne : (i == 1) = false := by
      simp only [beq_eq_false_iff_ne, ne_eq]
      omega
    simp only [hne, Bool.false_or]
    constructor
    · by_cases hp : 10 ≤ (i - 1) % 10 + S <;>
        simp [hp, decide_eq_true_eq, h, h2] <;> omega
    · by_cases hp : 10 ≤ (i - 1) % 10 + S <;>
        simp [hp, decide_eq_true_eq] <;> omega

/-- Witness for the C6 theorem at S = 4, row i = 7 (witness index 6, where
the permute test fires): the bit-count selector is on, exactly one of the
other two selectors is on, and it is not the full-window selector. -/
theorem running_sum_selector_toggling_witness :
    bitCountSelectorEnabled 7 = true ∧
    (fullWindowSelectorEnabled 4 7 = !permuteSelectorEnabled 4 7) ∧
    (fullWindowSelectorEnabled 4 7 = true ↔ (7 - 1) % 10 + 4 < 10) :=
  running_sum_selector_toggling 4 7 (by decide) (by decide) (by decide)

/-- Selector[0] gate "horizontal/ vertical placement constraint"
(chip.rs lines 145-160): both constraint polynomials vanish,
horizontal * vertical = 0 and sum - (horizontal + vertical) = 0. -/
def placementOrientationGate {F : Type} [Field F] (sum h v : F) : Prop :=
  h * v = 0 ∧ sum - (h + v) = 0

/-- PlacementChip::load_placement (chip.rs lines 309-345): assigns the sum
cell with value horizontal + vertical at advice[0] row 0, copies the
horizontal and vertical cells beside it, and returns the three cells. -/
def load_placement {F : Type} [Field F] (h v : F) : F × F × F :=
  (h + v, h, v)

/-- C7: load_placement assigns a sum cell valued horizontal + vertical,
returns the triple (sum cell, copied horizontal cell, copied vertical
cell), and the selector-toggled gate enabled on their row, with constraints
horizontal * vertical = 0 and sum = horizontal + vertical, is satisfied on
the returned triple exactly when horizontal * vertical = 0. -/
theorem load_placement_spec {F : Type} [Field F] (h v : F) :
    (load_placement h v).1 = h + v ∧
    (load_placement h v).2.1 = h ∧
    (load_placement h v).2.2 = v ∧
    (placementOrientationGate (load_placement h v).1 (load_placement h v).2.1
      (load_placement h v).2.2 ↔ h * v = 0) := by
  refine ⟨rfl, rfl, rfl, ?_⟩
  constructor
  · intro hg
    exact hg.1
  · intro hz
    refine ⟨hz, ?_⟩
    show h + v - (h + v) = 0
    ring

/-- Witness for the C7 theorem over the rationals at horizontal = 0,
vertical = 3. -/
theorem load_placement_spec_witness :
    (load_placement (0 : ℚ) 3).1 = 0 + 3 ∧
    (load_placement (0 : ℚ) 3).2.1 = 0 ∧
    (load_placement (0 : ℚ) 3).2.2 = 3 ∧
    (placementOrientationGate (load_placement (0 : ℚ) 3).1
      (load_placement (0 : ℚ) 3).2.1 (load_placement (0 : ℚ) 3).2.2 ↔
      (0 : ℚ) * 3 = 0) :=
  load_placement_spec 0 3

/-- Lagrange basis polynomial through the nodes 0, ..., S, evaluated at x:
the product over all nodes j other than i of (x - j) / (i - j). -/
def lagrangeBasisAt (F : Type) [Field F] (S i : Nat) (x : F) : F :=
  ((Finset.range (S + 1)).erase i).prod
    (fun j => (x - (j : F)) / ((i : F) - (j : F)))

/-- Interpolated incrementor of the "adjacency bit count" gate (chip.rs
lines 219-236): halo2 lagrange_interpolate is applied to the points
0, 1, ..., S with evaluations 0 everywhere except 1 at the point S, and
the gate evaluates the resulting fixed polynomial at the window bit count.
Modelled as the evaluation of the unique interpolant through those nodes,
in Lagrange form. -/
def interpolate_incrementor (F : Type) [Field F] (S : Nat) (x : F) : F :=
  (Finset.range (S + 1)).sum
    (fun i => (if i = S then (1 : F) else 0) * lagrangeBasisAt F S i x)

/-- C3: the fixed polynomial P built by Lagrange interpolation over
0, 1, ..., S satisfies P(S) = 1 and P(k) = 0 for every k < S; hence on a
window of S boolean bits the gate incrementor P(window_bit_count) equals 1
exactly when all S bits are set and 0 otherwise, agreeing with the witness
generator increment.  The injectivity hypothesis states that the node
values 0, ..., S are distinct in F, which holds in the prime field of the
circuit since S is tiny relative to the characteristic. -/
theorem interpolate_incrementor_spec (F : Type) [Field F] (S : Nat)
    (hinj : ∀ m n : Nat, m ≤ S → n ≤ S → (m : F) = n → m = n) :
    interpolate_incrementor F S (S : F) = 1 ∧
    (∀ k : Nat, k < S → interpolate_incrementor F S (k : F) = 0) ∧
    (∀ (bits : Nat → Bool) (offset : Nat),
      interpolate_incrementor F S ((windowBitCount S bits offset : Nat) : F)
        = ((increment S bits offset : Nat) : F)) := by
  have hsum : ∀ x : F, interpolate_incrementor F S x = lagrangeBasisAt F S S x := by
    intro x
    unfold interpolate_incrementor
    rw [Finset.sum_eq_single_of_mem S (Finset.mem_range.mpr (Nat.lt_succ_self S))]
    · rw [if_pos rfl, one_mul]
    · intro b hb hbne
      rw [if_neg hbne, zero_mul]
  have hself : lagrangeBasisAt F S S (S : F) = 1 := by
    unfold lagrangeBasisAt
    apply Finset.prod_eq_one
    intro j hj
    have hjS : j ≠ S := (Finset.mem_erase.mp hj).1
    have hjr : j ≤ S :=
      Nat.lt_succ_iff.mp (Finset.mem_range.mp (Finset.mem_erase.mp hj).2)
    have hne : ((S : F) - (j : F)) ≠ 0 := by
      intro h0
      exact hjS (hinj j S hjr (le_refl S) (sub_eq_zero.mp h0).symm)
    exact div_self hne
  have hlower : ∀ k : Nat, k < S → lagrangeBasisAt F S S (k : F) = 0 := by
    intro k hk
    unfold lagrangeBasisAt
    refine Finset.prod_eq_zero
      (Finset.mem_erase.mpr
        ⟨Nat.ne_of_lt hk, Finset.mem_range.mpr (Nat.lt_succ_of_lt hk)⟩) ?_
    rw [sub_self, zero_div]
  have hnode : ∀ k : Nat, k ≤ S →
      interpolate_incrementor F S (k : F) = if k = S then 1 else 0 := by
    intro k hk
    rcases Nat.eq_or_lt_of_le hk with h | h
    · subst h
      rw [hsum, hself, if_pos rfl]
    · rw [hsum, hlower k h, if_neg (Nat.ne_of_lt h)]
  refine ⟨by rw [hnode S (le_refl S), if_pos rfl], ?_, ?_⟩
  · intro k hk
    rw [hnode k (le_of_lt hk), if_neg (Nat.ne_of_lt hk)]
  · intro bits offset
    have hle := windowBitCount_le S bits offset
    unfold increment
    by_cases hc : windowBitCount S bits offset = S
    · rw [hc, if_pos rfl, hnode S (le_refl S), if_pos rfl]
      exact (Nat.cast_one).symm
    · rw [if_neg hc, hnode _ hle, if_neg hc]
      exact (Nat.cast_zero).symm

/-- Witness for the C3 theorem over the rationals at S = 4: the
interpolated incrementor evaluates to 1 at the node 4. -/
theorem interpolate_incrementor_spec_witness :
    interpolate_incrementor ℚ 4 ((4 : Nat) : ℚ) = 1 :=
  (interpolate_incrementor_spec ℚ 4
    (fun m n _ _ h => Nat.cast_injective h)).1

/-- Loop of BinaryValue::zip (binary.rs lines 70-81) after processing bit
positions 0, ..., n-1 in ascending order: starting from the all-zero
256-bit accumulator U256::ZERO, the step for position i fails (the source
panics) when both operands have bit i set, and otherwise stores the or of
the two bits; a failure propagates.  The 256-bit container is modelled as
a total function on positions, every position outside 0..255 being unused
and zero. -/
def zipTo (a b : Nat → Bool) : Nat → Option (Nat → Bool)
  | 0 => some (fun _ => false)
  | n + 1 =>
      match zipTo a b n with
      | none => none
      | some z =>
          if a n && b n then none
          else some (Function.update z n (a n || b n))

/-- BinaryValue::zip (binary.rs lines 70-81): run the merge loop over the
BOARD_SIZE positions 0, ..., 99; none models the panic of the source. -/
def zip (a b : Nat → Bool) : Option (Nat → Bool) :=
  zipTo a b BOARD_SIZE

lemma zipTo_succ_none (a b : Nat → Bool) (n : Nat) (h : zipTo a b n = none) :
    zipTo a b (n + 1) = none := by
  show (match zipTo a b n with
    | none => none
    | some z =>
        if a n && b n then none
        else some (Function.update z n (a n || b n))) = none
  rw [h]

lemma zipTo_succ_some (a b : Nat → Bool) (n : Nat) (z : Nat → Bool)
    (h : zipTo a b n = some z) :
    zipTo a b (n + 1) =
      if a n && b n then none
      else some (Function.update z n (a n || b n)) := by
  show (match zipTo a b n with
    | none => none
    | some z =>
        if a n && b n then none
        else some (Function.update z n (a n || b n))) = _
  rw [h]

lemma zipTo_eq_none_iff (a b : Nat → Bool) (n : Nat) :
    zipTo a b n = none ↔ ∃ i, i < n ∧ a i = true ∧ b i = true := by
  induction n with
  | zero => simp [zipTo]
  | succ m ih =>
      constructor
      · intro h
        rcases hz : zipTo a b m with _ | z
        · obtain ⟨i, hi, hai, hbi⟩ := ih.mp hz
          exact ⟨i, by omega, hai, hbi⟩
        · rw [zipTo_succ_some a b m z hz] at h
          by_cases hab : a m && b m
          · rw [Bool.and_eq_true] at hab
            exact ⟨m, by omega, hab.1, hab.2⟩
          · rw [if_neg hab] at h
            exact absurd h (by simp)
      · intro ⟨i, hi, hai, hbi⟩
        rcases Nat.lt_succ_iff_lt_or_eq.mp hi with hi | hi
        · exact zipTo_succ_none a b m (ih.mpr ⟨i, hi, hai, hbi⟩)
        · subst hi
          rcases hz : zipTo a b i with _ | z
          · exact zipTo_succ_none a b i hz
          · rw [zipTo_succ_some a b i z hz, hai, hbi]
            rfl

lemma zipTo_some_apply (a b : Nat → Bool) (n : Nat) :
    ∀ z, zipTo a b n = some z →
      ∀ i, z i = if i < n then a i || b i else false := by
  induction n with
  | zero =>
      intro z hz i
      have h0 : (some (fun _ => false) : Option (Nat → Bool)) = some z := hz
      rw [← Option.some_inj.mp h0]
      simp
  | succ m ih =>
      intro z hz i
      rcases hw : zipTo a b m with _ | w
      · rw [zipTo_succ_none a b m hw] at hz
        exact absurd hz (by simp)
      · rw [zipTo_succ_some a b m w hw] at hz
        by_cases hab : a m && b m
        · rw [if_pos hab] at hz
          exact absurd hz (by simp)
        · rw [if_neg hab] at hz
          rw [← Option.some_inj.mp hz]
          by_cases him : i = m
          · subst him
            rw [Function.update_same, if_pos (Nat.lt_succ_self i)]
          · rw [Function.update_noteq him, ih w hw i]
            rcases Nat.lt_trichotomy i m with hlt | heq | hgt
            · rw [if_pos hlt, if_pos (by omega)]
            · exact absurd heq him
            · rw [if_neg (by omega), if_neg (by omega)]

/-- C8 counterexample: the two operands both have bit position 100 set,
yet zip does not fail, refuting the claim that the merge fails whenever
any bit position is set in both operands. -/
theorem zip_high_overlap_no_failure :
    (fun i : Nat => decide (i = 100)) 100 = true ∧
    (zip (fun i : Nat => decide (i = 100))
      (fun i : Nat => decide (i = 100))).isSome = true := by
  constructor
  · decide
  · rfl

/-- C8 (amended): zip fails exactly when some board position (bit index
below 100) is set in both operands; on success the result is the bitwise
union of the operands on positions 0..99 and zero everywhere above. -/
theorem zip_spec (a b : Nat → Bool) :
    (zip a b = none ↔ ∃ i, i < BOARD_SIZE ∧ a i = true ∧ b i = true) ∧
    (∀ z, zip a b = some z →
      ∀ i, z i = if i < BOARD_SIZE then a i || b i else false) := by
  exact ⟨zipTo_eq_none_iff a b BOARD_SIZE, zipTo_some_apply a b BOARD_SIZE⟩

/-- Witness for the C8 amended theorem: operands overlapping at board
position 3 make zip fail. -/
theorem zip_spec_witness :
    zip (fun i : Nat => decide (i = 3)) (fun i : Nat => decide (i = 3)) = none :=
  (zip_spec (fun i : Nat => decide (i = 3)) (fun i : Nat => decide (i = 3))).1.mpr
    ⟨3, by decide, by decide, by decide⟩

/-- C10: zip only inspects and produces bit positions 0..99: every bit of
a successful result at positions 100 and above is 0 regardless of the
operand bits there, and whenever no position below 100 is set in both
operands the merge succeeds, so an overlap at positions 100..255 alone
never causes a failure. -/
theorem zip_ignores_high_bits (a b : Nat → Bool) :
    (∀ z, zip a b = some z → ∀ i, BOARD_SIZE ≤ i → z i = false) ∧
    ((∀ i, i < BOARD_SIZE → ¬(a i = true ∧ b i = true)) →
      (zip a b).isSome = true) := by
  constructor
  · intro z hz i hi
    rw [zipTo_some_apply a b BOARD_SIZE z hz i, if_neg (by omega)]
  · intro h
    rcases hz : zip a b with _ | z
    · obtain ⟨i, hi, hai, hbi⟩ := (zipTo_eq_none_iff a b BOARD_SIZE).mp hz
      exact absurd ⟨hai, hbi⟩ (h i hi)
    · rfl

/-- Witness for the C10 theorem: operands overlapping only at position
200 merge successfully. -/
theorem zip_ignores_high_bits_witness :
    (zip (fun i : Nat => decide (i = 200))
      (fun i : Nat => decide (i = 200))).isSome = true :=
  (zip_ignores_high_bits (fun i : Nat => decide (i = 200))
    (fun i : Nat => decide (i = 200))).2 (by decide)

/-- PlacementBits::get_window (gadget.rs lines 40-57): returns the S
consecutive assigned bit cells starting at offset, or the error string
when offset % 10 + S > 9 or offset > 99. -/
def get_window (S : Nat) {A : Type} (cells : Nat → A) (offset : Nat) :
    Except String (List A) :=
  if offset % 10 + S > 9 ∨ offset > 99 then
    Except.error "bit window out of bounds"
  else
    Except.ok ((List.range S).map (fun k => cells (offset + k)))

/-- C9 counterexample: the window of size S = 4 at offset 8 spans cells
8..11, entirely inside the 0..100 board range, yet get_window surfaces the
out-of-bounds error instead of returning the cells, refuting the claim
that the error occurs only when the window falls outside the board range. -/
theorem get_window_in_board_error :
    8 + 4 ≤ 100 ∧
    get_window 4 (fun i : Nat => i) 8 = Except.error "bit window out of bounds" := by
  constructor
  · decide
  · rfl

/-- C9 (amended): get_window surfaces an explicit error (an Err value, not
a panic) exactly when offset % 10 + S > 9 or offset > 99 — in particular
whenever the requested window falls outside the 0..100 board range — and
otherwise returns the S consecutive assigned bit cells beginning at
offset. -/
theorem get_window_spec {A : Type} (S offset : Nat) (cells : Nat → A) :
    (offset + S > 100 ∨ offset > 99 →
      get_window S cells offset = Except.error "bit window out of bounds") ∧
    (get_window S cells offset = Except.error "bit window out of bounds" ↔
      offset % 10 + S > 9 ∨ offset > 99) ∧
    (¬(offset % 10 + S > 9 ∨ offset > 99) →
      get_window S cells offset =
        Except.ok ((List.range S).map (fun k => cells (offset + k)))) := by
  refine ⟨?_, ?_, ?_⟩
  · intro h
    unfold get_window
    rw [if_pos]
    omega
  · unfold get_window
    by_cases hc : offset % 10 + S > 9 ∨ offset > 99
    · rw [if_pos hc]
      simp [hc]
    · rw [if_neg hc]
      simp [hc]
  · intro hc
    unfold get_window
    rw [if_neg hc]

/-- Witness for the C9 amended theorem at S = 4, offset = 98: the window
runs past the end of the board and get_window returns the explicit
error. -/
theorem get_window_spec_witness :
    get_window 4 (fun i : Nat => i) 98 = Except.error "bit window out of bounds" :=
  (get_window_spec 4 98 (fun i : Nat => i)).1 (Or.inl (by decide))

end BattleZips
